import Mathlib

set_option maxRecDepth 8000

/-!
Verification of the AIJobMatcher cleaning pipeline (src/jobs_clean.py) and the
LLM adapter post-processing step (src/llm_reasoning.py).

Strings are modelled as Lean `String`/`List Char` (one `Char` per Unicode code
point, matching Python `str` indexing and `len`).  The regular-expression
substitutions of the source are modelled as executable left-to-right scanners
with the exact semantics of `re.sub` for the concrete patterns involved.
Recursive scanners take an explicit fuel argument (instantiated with the list
length) so that they are structurally recursive and kernel-evaluable.
-/

/- Python whitespace: the set matched by `\s` in a str-pattern regex, which is
also the set stripped by `str.strip()` and collapsed by `re.sub(r"\s+"," ",s)`.
It consists of the ASCII whitespace control characters, \x1c-\x1f, \x85, the
no-break space, and the Unicode space separators. -/
def isPySpace (c : Char) : Bool :=
  decide (c.toNat ∈ ([0x09, 0x0a, 0x0b, 0x0c, 0x0d, 0x20, 0x1c, 0x1d, 0x1e, 0x1f,
    0x85, 0xa0, 0x1680, 0x2028, 0x2029, 0x202f, 0x205f, 0x3000] : List Nat))
  || decide (0x2000 ≤ c.toNat ∧ c.toNat ≤ 0x200a)

def nonSpace (c : Char) : Bool := !(isPySpace c)

/- A raw cell value of the input table: pandas scalar values as seen by
`clean_text`/`clean_description`.  `null` stands for NaN/None (the values for
which `pd.isna` is true); numbers and booleans are the non-string scalars. -/
inductive Cell where
  | null : Cell
  | str : String → Cell
  | num : Int → Cell
  | boolean : Bool → Cell
deriving DecidableEq

/- `pd.isna` on a scalar. -/
def Cell.isna : Cell → Bool
  | Cell.null => true
  | _ => false

/- Python `str(...)` on a scalar (the `null` case is unreachable in the
cleaners because they return early on `isna`). -/
def Cell.pyStr : Cell → String
  | Cell.null => "nan"
  | Cell.str s => s
  | Cell.num n => toString n
  | Cell.boolean b => if b then ("True") else ("False")

/- `s.replace(" ", " ")` : jobs_clean.py lines 16 and 43. -/
def replaceNbsp (cs : List Char) : List Char :=
  cs.map (fun c => if c = Char.ofNat 0xa0 then ' ' else c)

/- Predicate `[^>]` of the HTML pattern. -/
def notGt (c : Char) : Bool := decide (c ≠ '>')

/- `re.sub(r"<[^>]+>", " ", s)` (jobs_clean.py lines 17, 24, 44), as the
left-to-right scan of the regex engine: at a `<`, the greedy `[^>]+` runs to
the first following `>`; the match requires at least one character in between;
a successful match is replaced by one space and scanning resumes after it;
otherwise the character is kept and scanning moves one position right. -/
def stripHtmlF : Nat → List Char → List Char
  | _, [] => []
  | 0, cs => cs
  | n + 1, c :: rest =>
    if c = '<' then
      if rest.takeWhile notGt = [] then c :: stripHtmlF n rest
      else
        match rest.dropWhile notGt with
        | [] => c :: stripHtmlF n rest
        | _ :: rem => ' ' :: stripHtmlF n rem
    else c :: stripHtmlF n rest

def stripHtml (cs : List Char) : List Char := stripHtmlF cs.length cs

def startsWithL : List Char → List Char → Bool
  | [], _ => true
  | _ :: _, [] => false
  | p :: ps, c :: cs => p == c && startsWithL ps cs

def httpPre : List Char := ['h', 't', 't', 'p', ':', '/', '/']
def httpsPre : List Char := ['h', 't', 't', 'p', 's', ':', '/', '/']
def wwwPre : List Char := ['w', 'w', 'w', '.']

/- Match attempt of `(https?://\S+|www\.\S+)` (jobs_clean.py line 25) at the
head of `cs`: one of the three literal openings followed by a greedy `\S+`
(at least one non-whitespace character, extending to the next whitespace).
Returns the length of the match.  The three openings are pairwise
non-overlapping, so the regex alternation order does not matter. -/
def urlMatchLen (cs : List Char) : Option Nat :=
  if startsWithL httpPre cs then
    let tok := (cs.drop 7).takeWhile nonSpace
    if tok = [] then none else some (7 + tok.length)
  else if startsWithL httpsPre cs then
    let tok := (cs.drop 8).takeWhile nonSpace
    if tok = [] then none else some (8 + tok.length)
  else if startsWithL wwwPre cs then
    let tok := (cs.drop 4).takeWhile nonSpace
    if tok = [] then none else some (4 + tok.length)
  else none

/- `re.sub` scan for the URL pattern: each match replaced by one space. -/
def stripUrlsF : Nat → List Char → List Char
  | _, [] => []
  | 0, cs => cs
  | n + 1, c :: rest =>
    match urlMatchLen (c :: rest) with
    | some k => ' ' :: stripUrlsF n (rest.drop (k - 1))
    | none => c :: stripUrlsF n rest

def stripUrls (cs : List Char) : List Char := stripUrlsF cs.length cs

/- The character class kept by `_ALLOWED_DESC = [^A-Za-z0-9\s\+\#\.\-\/\%\(\)\:\,]`
(jobs_clean.py line 30): ASCII letters and digits, whitespace, and the listed
technical punctuation. -/
def isAllowedDescChar (c : Char) : Bool :=
  c.isAlpha || c.isDigit || isPySpace c ||
  decide (c ∈ (['+', '#', '.', '-', '/', '%', '(', ')', ':', ','] : List Char))

/- `_ALLOWED_DESC.sub(" ", s)` (line 46): every character outside the class is
replaced by a space (a single-character negated class, so the substitution is
pointwise). -/
def allowFilter (cs : List Char) : List Char :=
  cs.map (fun c => if isAllowedDescChar c then c else ' ')

/- Maximal runs of non-whitespace characters, in order. -/
def wordsF : Nat → List Char → List (List Char)
  | _, [] => []
  | 0, _ => []
  | n + 1, c :: rest =>
    if isPySpace c then wordsF n rest
    else (c :: rest.takeWhile nonSpace) :: wordsF n (rest.dropWhile nonSpace)

def words (cs : List Char) : List (List Char) := wordsF cs.length cs

def joinWords : List (List Char) → List Char
  | [] => []
  | [w] => w
  | w :: ws => w ++ ' ' :: joinWords ws

/- `re.sub(r"\s+", " ", s).strip()` (jobs_clean.py lines 18, 47): every
whitespace run becomes one ASCII space and the ends are trimmed, which is
exactly the non-whitespace words joined by single spaces. -/
def normWs (cs : List Char) : List Char := joinWords (words cs)

/- `clean_text` (jobs_clean.py lines 11-19). -/
def clean_text (v : Cell) : String :=
  if v.isna then ("") else
    String.mk (normWs (stripHtml (replaceNbsp (Cell.pyStr v).data)))

/- `clean_description` (jobs_clean.py lines 32-48). -/
def clean_description (v : Cell) : String :=
  if v.isna then ("") else
    String.mk (normWs (allowFilter (stripUrls (stripHtml (replaceNbsp (Cell.pyStr v).data)))))

/- `cs` contains an HTML-like tag sequence, i.e. an occurrence of the regex
`<[^>]+>` : some `<` whose immediately following character is not `>` and with
some `>` later on (the segment up to the first such `>` is then a match). -/
def hasTag (cs : List Char) : Prop :=
  ∃ a d b, cs = a ++ '<' :: d :: b ∧ d ≠ '>' ∧ '>' ∈ b

/- A URL token of the pattern starts at the head of `cs`. -/
def urlStart (cs : List Char) : Prop :=
  ∃ pre, pre ∈ [httpPre, httpsPre, wwwPre] ∧
    ∃ e r, cs = pre ++ e :: r ∧ isPySpace e = false

/- `cs` contains an occurrence of the URL pattern. -/
def hasUrl (cs : List Char) : Prop := ∃ a b, cs = a ++ b ∧ urlStart b

/- Python `str.strip()` (used on the column names, jobs_clean.py line 56). -/
def pyStrip (s : String) : String :=
  String.mk (((s.data.dropWhile isPySpace).reverse.dropWhile isPySpace).reverse)

/- A cleaned output record (the canonical schema of jobs_clean.py lines 66-80
after the cleaning maps of lines 83-93). -/
structure JobRec where
  job_id : Cell
  title : String
  company_id : Cell
  location : String
  description : String
  work_type : String
  remote_allowed : Cell
  experience_level : String
  job_posting_url : String
deriving DecidableEq

/- A projected record before cleaning (raw cell values). -/
structure JobRec0 where
  job_id : Cell
  title : Cell
  company_id : Cell
  location : Cell
  description : Cell
  work_type : Cell
  remote_allowed : Cell
  experience_level : Cell
  job_posting_url : Cell

def requiredCols : List String := ["job_id", "title", "description"]

def stripCols (cols : List String) : List String := cols.map pyStrip

/- `[c for c in required if c not in df.columns]` (jobs_clean.py line 61). -/
def missingOf (cols : List String) : List String :=
  requiredCols.filter (fun c => !(cols.contains c))

/- `df["c"] if "c" in df.columns else ""` (the optional columns of lines 69-79). -/
def getIf (cols : List String) (r : String → Cell) (c : String) : Cell :=
  if c ∈ cols then r c else Cell.str ("")

def projectRow (cols : List String) (r : String → Cell) : JobRec0 :=
  ⟨r ("job_id"), r ("title"), getIf cols r ("company_id"), getIf cols r ("location"),
    r ("description"), getIf cols r ("formatted_work_type"), getIf cols r ("remote_allowed"),
    getIf cols r ("formatted_experience_level"), getIf cols r ("job_posting_url")⟩

/- `fillna("")` on a scalar (jobs_clean.py line 93). -/
def fillnaEmpty (v : Cell) : Cell :=
  match v with
  | Cell.null => Cell.str ("")
  | x => x

/- The cleaning maps of jobs_clean.py lines 83-93. -/
def cleanRec (r : JobRec0) : JobRec :=
  ⟨r.job_id, clean_text r.title, r.company_id, clean_text r.location,
    clean_description r.description, clean_text r.work_type,
    fillnaEmpty r.remote_allowed, clean_text r.experience_level,
    clean_text r.job_posting_url⟩

/- Lines 96-99: keep rows with non-empty description, then rows whose
description length (in characters) is at least 80. -/
def qualityFilter (rs : List JobRec) : List JobRec :=
  (rs.filter (fun r => !(r.description == ""))).filter
    (fun r => decide (80 ≤ r.description.length))

/- The duplicate signature (title, location, first 250 characters of the
cleaned description), jobs_clean.py line 103. -/
def sigOf (r : JobRec) : String × String × String :=
  (r.title, r.location, String.mk (r.description.data.take 250))

/- `drop_duplicates(subset=["title","location","desc_sig"])` (line 105): keep
the first row of each signature, preserving order. -/
def dedupAux : List JobRec → List (String × String × String) → List JobRec
  | [], _ => []
  | r :: rs, seen =>
    if sigOf r ∈ seen then dedupAux rs seen
    else r :: dedupAux rs (sigOf r :: seen)

def dedupRecs (rs : List JobRec) : List JobRec := dedupAux rs []

/- The `ValueError` of jobs_clean.py line 63, whose message carries the missing
columns and the columns actually found. -/
structure SchemaError where
  missing : List String
  found : List String
deriving DecidableEq

structure RunResult where
  output : List JobRec
  rawCount : Nat
  droppedQuality : Nat
  droppedDup : Nat
deriving DecidableEq

/- `main()` of jobs_clean.py, lines 55-109, up to the write-out: strip the
column names, check the required columns (raising before any output is
produced), project, clean, filter by description quality, and deduplicate.
The two drop counts are the `before - len(out)` prints of lines 100 and 106.
An input row is a mapping from column name to cell value. -/
def mainModel (cols : List String) (rows : List (String → Cell)) : Except SchemaError RunResult :=
  let scols := stripCols cols
  let missing := missingOf scols
  if missing = [] then
    let recs := rows.map (fun r => cleanRec (projectRow scols r))
    let kept := qualityFilter recs
    let final := dedupRecs kept
    Except.ok ⟨final, rows.length, recs.length - kept.length, kept.length - final.length⟩
  else Except.error ⟨missing, scols⟩

/- JSON values, for the adapter of src/llm_reasoning.py. -/
inductive JVal where
  | jnull : JVal
  | jbool : Bool → JVal
  | jnum : Int → JVal
  | jstr : String → JVal
  | jarr : List JVal → JVal
  | jobj : List (String × JVal) → JVal

/- Python `d[k] = v` on a dict represented as its ordered key/value pairs
(insertion order): an existing key keeps its position and gets the new value,
a new key is appended at the end. -/
def dictSet : List (String × JVal) → String → JVal → List (String × JVal)
  | [], k, v => [(k, v)]
  | (k', v') :: rest, k, v =>
    if k' = k then (k, v) :: rest else (k', v') :: dictSet rest k v

/- The tail of `run_one` (llm_reasoning.py lines 50-54): the parsed JSON object
returned by the external call, with `result["fit_score"] = fit_score` enforced
before returning. -/
def run_one_result (parsed : List (String × JVal)) (fit_score : Int) : List (String × JVal) :=
  dictSet parsed ("fit_score") (JVal.jnum fit_score)

/- Concrete data used to exercise the pipeline theorems. -/

def wCols : List String := ["job_id", "title", "description"]

/- An 80-character description (exactly the default threshold). -/
def wDesc : String := "aaaaaaaaaaaaaaaaaaaaaaaaaaaaaaaaaaaaaaaaaaaaaaaaaaaaaaaaaaaaaaaaaaaaaaaaaaaaaaaa"

def wRow : String → Cell := fun c =>
  if c = "job_id" then Cell.str ("1")
  else if c = "title" then Cell.str ("T")
  else if c = "description" then Cell.str (wDesc)
  else Cell.null

def wOutRec : JobRec :=
  ⟨Cell.str ("1"), "T", Cell.str (""), "", wDesc, "", Cell.str (""), "", ""⟩

def wRes : RunResult := ⟨[wOutRec], 1, 0, 0⟩

/- Two records sharing the duplicate signature but differing in `job_id`. -/

def wRec1 : JobRec :=
  ⟨Cell.str ("1"), "Data Analyst", Cell.str (""), "Remote", "shared description", "",
    Cell.str (""), "", ""⟩

def wRec2 : JobRec :=
  ⟨Cell.str ("2"), "Data Analyst", Cell.str (""), "Remote", "shared description", "",
    Cell.str (""), "", ""⟩

/-! ### Basic helper lemmas -/

theorem jmSpaceSpace : isPySpace ' ' = true := by decide

theorem jmNonSpaceFalse {c : Char} (h : nonSpace c = false) : isPySpace c = true := by
  simp [nonSpace] at h; exact h

theorem jmNonSpaceTrue {c : Char} (h : nonSpace c = true) : isPySpace c = false := by
  simp [nonSpace] at h; exact h

theorem jmMemDropWhile {α : Type} {p : α → Bool} {l : List α} {x : α}
    (h : x ∈ l.dropWhile p) : x ∈ l := by
  have h2 := List.takeWhile_append_dropWhile (p := p) (l := l)
  rw [← h2]
  exact List.mem_append_right _ h

theorem jmMemTakeWhile {α : Type} {p : α → Bool} {l : List α} {x : α}
    (h : x ∈ l.takeWhile p) : x ∈ l := by
  have h2 := List.takeWhile_append_dropWhile (p := p) (l := l)
  rw [← h2]
  exact List.mem_append_left _ h

theorem jmDropWhileHead {α : Type} {p : α → Bool} : ∀ {l : List α} {x : α} {xs : List α},
    l.dropWhile p = x :: xs → p x = false := by
  intro l
  induction l with
  | nil => intro x xs h; simp [List.dropWhile] at h
  | cons a l ih =>
    intro x xs h
    by_cases ha : p a
    · rw [List.dropWhile_cons_of_pos ha] at h; exact ih h
    · rw [List.dropWhile_cons_of_neg ha] at h
      cases h; simpa using ha

theorem jmTakeWhileAll {α : Type} {p : α → Bool} : ∀ {l : List α},
    (∀ x ∈ l, p x = true) → l.takeWhile p = l := by
  intro l
  induction l with
  | nil => intro _; rfl
  | cons a l ih =>
    intro h
    rw [List.takeWhile_cons_of_pos (h a (by simp))]
    rw [ih (fun x hx => h x (by simp [hx]))]

theorem jmDropWhileAll {α : Type} {p : α → Bool} : ∀ {l : List α},
    (∀ x ∈ l, p x = true) → l.dropWhile p = [] := by
  intro l
  induction l with
  | nil => intro _; rfl
  | cons a l ih =>
    intro h
    rw [List.dropWhile_cons_of_pos (h a (by simp))]
    exact ih (fun x hx => h x (by simp [hx]))

theorem jmTakeWhileAppend {α : Type} {p : α → Bool} {y : α} (hy : p y = false) :
    ∀ {w r : List α}, (∀ x ∈ w, p x = true) →
      (w ++ y :: r).takeWhile p = w ∧ (w ++ y :: r).dropWhile p = y :: r := by
  intro w
  induction w with
  | nil =>
    intro r _
    have hy' : ¬ p y = true := by simp [hy]
    constructor
    · simp [List.takeWhile_cons_of_neg hy']
    · simp [List.dropWhile_cons_of_neg hy']
  | cons a w ih =>
    intro r h
    have ha : p a = true := h a (by simp)
    have := ih (r := r) (fun x hx => h x (by simp [hx]))
    constructor
    · simp only [List.cons_append, List.takeWhile_cons_of_pos ha]
      rw [this.1]
    · simp only [List.cons_append, List.dropWhile_cons_of_pos ha]
      exact this.2

theorem jmTakeWhileNeNil {α : Type} {p : α → Bool} {l : List α}
    (h : l.takeWhile p ≠ []) : ∃ e r, l = e :: r ∧ p e = true := by
  cases l with
  | nil => simp at h
  | cons a l =>
    by_cases ha : p a
    · exact ⟨a, l, rfl, ha⟩
    · rw [List.takeWhile_cons_of_neg ha] at h; simp at h

/-! ### Fuel irrelevance and step equations -/

theorem stripHtmlF_irrel : ∀ (m n : Nat) (cs : List Char), cs.length ≤ m → cs.length ≤ n →
    stripHtmlF m cs = stripHtmlF n cs := by
  intro m
  induction m with
  | zero =>
    intro n cs hm _
    have hcs : cs = [] := List.eq_nil_of_length_eq_zero (Nat.le_zero.mp hm)
    subst hcs
    cases n <;> rfl
  | succ m ih =>
    intro n cs hm hn
    cases cs with
    | nil => cases n <;> rfl
    | cons c rest =>
      cases n with
      | zero => simp at hn
      | succ n' =>
        simp only [List.length_cons, Nat.add_le_add_iff_right] at hm hn
        simp only [stripHtmlF]
        by_cases hc : c = '<'
        · rw [if_pos hc, if_pos hc]
          by_cases ht : rest.takeWhile notGt = []
          · rw [if_pos ht, if_pos ht, ih n' rest hm hn]
          · rw [if_neg ht, if_neg ht]
            cases hdw : rest.dropWhile notGt with
            | nil => simp [ih n' rest hm hn]
            | cons hd rem =>
              have hlen : rem.length ≤ rest.length := by
                have h1 : (rest.dropWhile notGt).length ≤ rest.length :=
                  (List.dropWhile_sublist notGt).length_le
                rw [hdw] at h1
                simp at h1
                omega
              simp [ih n' rem (le_trans hlen hm) (le_trans hlen hn)]
        · rw [if_neg hc, if_neg hc, ih n' rest hm hn]

theorem stripHtml_nil : stripHtml [] = [] := rfl

theorem stripHtml_cons_keep {c : Char} {rest : List Char}
    (h : c ≠ '<' ∨ rest.takeWhile notGt = [] ∨ rest.dropWhile notGt = []) :
    stripHtml (c :: rest) = c :: stripHtml rest := by
  show stripHtmlF (rest.length + 1) (c :: rest) = c :: stripHtml rest
  simp only [stripHtmlF]
  by_cases hc : c = '<'
  · rw [if_pos hc]
    by_cases ht : rest.takeWhile notGt = []
    · rw [if_pos ht]; rfl
    · rw [if_neg ht]
      have hdw : rest.dropWhile notGt = [] := by
        rcases h with h | h | h
        · exact absurd hc h
        · exact absurd h ht
        · exact h
      rw [hdw]
      rfl
  · rw [if_neg hc]; rfl

theorem stripHtml_cons_match {rest rem : List Char}
    (ht : rest.takeWhile notGt ≠ []) (hdw : rest.dropWhile notGt = '>' :: rem) :
    stripHtml ('<' :: rest) = ' ' :: stripHtml rem := by
  show stripHtmlF (rest.length + 1) ('<' :: rest) = ' ' :: stripHtml rem
  simp only [stripHtmlF, if_pos rfl, if_neg ht, hdw]
  have hlen : rem.length ≤ rest.length := by
    have h1 : (rest.dropWhile notGt).length ≤ rest.length :=
      (List.dropWhile_sublist notGt).length_le
    rw [hdw] at h1; simp at h1; omega
  rw [stripHtmlF_irrel rest.length rem.length rem hlen (le_refl _)]
  rfl

theorem stripUrlsF_irrel : ∀ (m n : Nat) (cs : List Char), cs.length ≤ m → cs.length ≤ n →
    stripUrlsF m cs = stripUrlsF n cs := by
  intro m
  induction m with
  | zero =>
    intro n cs hm _
    have hcs : cs = [] := List.eq_nil_of_length_eq_zero (Nat.le_zero.mp hm)
    subst hcs
    cases n <;> rfl
  | succ m ih =>
    intro n cs hm hn
    cases cs with
    | nil => cases n <;> rfl
    | cons c rest =>
      cases n with
      | zero => simp at hn
      | succ n' =>
        simp only [List.length_cons, Nat.add_le_add_iff_right] at hm hn
        simp only [stripUrlsF]
        cases hu : urlMatchLen (c :: rest) with
        | none => simp [ih n' rest hm hn]
        | some k =>
          have hlen : (rest.drop (k - 1)).length ≤ rest.length := by
            rw [List.length_drop]; omega
          simp [ih n' (rest.drop (k - 1)) (le_trans hlen hm) (le_trans hlen hn)]

theorem stripUrls_nil : stripUrls [] = [] := rfl

theorem stripUrls_cons_match {c : Char} {rest : List Char} {k : Nat}
    (h : urlMatchLen (c :: rest) = some k) :
    stripUrls (c :: rest) = ' ' :: stripUrls (rest.drop (k - 1)) := by
  show stripUrlsF (rest.length + 1) (c :: rest) = ' ' :: stripUrls (rest.drop (k - 1))
  simp only [stripUrlsF, h]
  have hlen : (rest.drop (k - 1)).length ≤ rest.length := by
    rw [List.length_drop]; omega
  rw [stripUrlsF_irrel rest.length (rest.drop (k - 1)).length _ hlen (le_refl _)]
  rfl

theorem stripUrls_cons_none {c : Char} {rest : List Char}
    (h : urlMatchLen (c :: rest) = none) :
    stripUrls (c :: rest) = c :: stripUrls rest := by
  show stripUrlsF (rest.length + 1) (c :: rest) = c :: stripUrls rest
  simp only [stripUrlsF, h]
  rfl

theorem wordsF_irrel : ∀ (m n : Nat) (cs : List Char), cs.length ≤ m → cs.length ≤ n →
    wordsF m cs = wordsF n cs := by
  intro m
  induction m with
  | zero =>
    intro n cs hm _
    have hcs : cs = [] := List.eq_nil_of_length_eq_zero (Nat.le_zero.mp hm)
    subst hcs
    cases n <;> rfl
  | succ m ih =>
    intro n cs hm hn
    cases cs with
    | nil => cases n <;> rfl
    | cons c rest =>
      cases n with
      | zero => simp at hn
      | succ n' =>
        simp only [List.length_cons, Nat.add_le_add_iff_right] at hm hn
        simp only [wordsF]
        by_cases hc : isPySpace c
        · simp [hc, ih n' rest hm hn]
        · have hlen : (rest.dropWhile nonSpace).length ≤ rest.length :=
            (List.dropWhile_sublist nonSpace).length_le
          simp [hc, ih n' (rest.dropWhile nonSpace) (le_trans hlen hm) (le_trans hlen hn)]

theorem words_nil : words [] = [] := rfl

theorem words_space {c : Char} {rest : List Char} (h : isPySpace c = true) :
    words (c :: rest) = words rest := by
  show wordsF (rest.length + 1) (c :: rest) = words rest
  simp only [wordsF, h, if_pos]
  rfl

theorem words_nonspace {c : Char} {rest : List Char} (h : isPySpace c = false) :
    words (c :: rest) =
      (c :: rest.takeWhile nonSpace) :: words (rest.dropWhile nonSpace) := by
  show wordsF (rest.length + 1) (c :: rest) = _
  simp only [wordsF, h]
  rw [wordsF_irrel rest.length (rest.dropWhile nonSpace).length _
    ((List.dropWhile_sublist nonSpace).length_le) (le_refl _)]
  simp [words]

theorem joinWords_nil : joinWords [] = [] := rfl

theorem joinWords_cons {w : List Char} {ws : List (List Char)} (h : ws ≠ []) :
    joinWords (w :: ws) = w ++ ' ' :: joinWords ws := by
  cases ws with
  | nil => exact absurd rfl h
  | cons w' ws' => rfl

/-! ### Structure of `words` and `normWs` -/

theorem words_wf : ∀ (cs : List Char) (w : List Char), w ∈ words cs →
    w ≠ [] ∧ ∀ x ∈ w, isPySpace x = false := by
  have key : ∀ (n : Nat) (cs : List Char), cs.length ≤ n → ∀ w ∈ words cs,
      w ≠ [] ∧ ∀ x ∈ w, isPySpace x = false := by
    intro n
    induction n with
    | zero =>
      intro cs hlen w hw
      have : cs = [] := List.eq_nil_of_length_eq_zero (Nat.le_zero.mp hlen)
      subst this
      simp [words_nil] at hw
    | succ n ih =>
      intro cs hlen w hw
      cases cs with
      | nil => simp [words_nil] at hw
      | cons c rest =>
        simp only [List.length_cons, Nat.add_le_add_iff_right] at hlen
        by_cases hc : isPySpace c
        · rw [words_space hc] at hw
          exact ih rest (by omega) w hw
        · have hc' : isPySpace c = false := by simpa using hc
          rw [words_nonspace hc'] at hw
          rcases List.mem_cons.mp hw with hw | hw
          · subst hw
            refine ⟨by simp, ?_⟩
            intro x hx
            rcases List.mem_cons.mp hx with hx | hx
            · subst hx; exact hc'
            · exact jmNonSpaceTrue (List.mem_takeWhile_imp hx)
          · have hlen2 : (rest.dropWhile nonSpace).length ≤ n :=
              le_trans ((List.dropWhile_sublist nonSpace).length_le) hlen
            exact ih _ hlen2 w hw
  intro cs
  exact key cs.length cs (le_refl _)

theorem mem_words_mem : ∀ (cs w : List Char), w ∈ words cs → ∀ x ∈ w, x ∈ cs := by
  have key : ∀ (n : Nat) (cs : List Char), cs.length ≤ n → ∀ w ∈ words cs, ∀ x ∈ w, x ∈ cs := by
    intro n
    induction n with
    | zero =>
      intro cs hlen w hw
      have : cs = [] := List.eq_nil_of_length_eq_zero (Nat.le_zero.mp hlen)
      subst this
      simp [words_nil] at hw
    | succ n ih =>
      intro cs hlen w hw x hx
      cases cs with
      | nil => simp [words_nil] at hw
      | cons c rest =>
        simp only [List.length_cons, Nat.add_le_add_iff_right] at hlen
        by_cases hc : isPySpace c
        · rw [words_space hc] at hw
          exact List.mem_cons_of_mem _ (ih rest (by omega) w hw x hx)
        · have hc' : isPySpace c = false := by simpa using hc
          rw [words_nonspace hc'] at hw
          rcases List.mem_cons.mp hw with hw | hw
          · subst hw
            rcases List.mem_cons.mp hx with hx | hx
            · subst hx; exact List.mem_cons_self _ _
            · exact List.mem_cons_of_mem _ (jmMemTakeWhile hx)
          · have hlen2 : (rest.dropWhile nonSpace).length ≤ n :=
              le_trans ((List.dropWhile_sublist nonSpace).length_le) hlen
            exact List.mem_cons_of_mem _ (jmMemDropWhile (ih _ hlen2 w hw x hx))
  intro cs
  exact key cs.length cs (le_refl _)

theorem mem_joinWords : ∀ (ws : List (List Char)) (x : Char), x ∈ joinWords ws →
    (∃ w ∈ ws, x ∈ w) ∨ x = ' ' := by
  intro ws
  induction ws with
  | nil => intro x hx; simp [joinWords] at hx
  | cons w ws ih =>
    intro x hx
    cases ws with
    | nil =>
      left
      exact ⟨w, by simp, by simpa [joinWords] using hx⟩
    | cons w' ws' =>
      rw [joinWords_cons (by simp)] at hx
      rcases List.mem_append.mp hx with hx | hx
      · exact Or.inl ⟨w, by simp, hx⟩
      · rcases List.mem_cons.mp hx with hx | hx
        · exact Or.inr hx
        · rcases ih x hx with ⟨u, hu, hxu⟩ | hx
          · exact Or.inl ⟨u, by simp [hu], hxu⟩
          · exact Or.inr hx

theorem mem_normWs {cs : List Char} {x : Char} (h : x ∈ normWs cs) : x ∈ cs ∨ x = ' ' := by
  rcases mem_joinWords (words cs) x h with ⟨w, hw, hxw⟩ | hx
  · exact Or.inl (mem_words_mem cs w hw x hxw)
  · exact Or.inr hx

theorem normWs_char {cs : List Char} {x : Char} (h : x ∈ normWs cs) :
    x = ' ' ∨ isPySpace x = false := by
  rcases mem_joinWords (words cs) x h with ⟨w, hw, hxw⟩ | hx
  · exact Or.inr ((words_wf cs w hw).2 x hxw)
  · exact Or.inl hx

theorem words_of_word {c : Char} {w : List Char} (hc : isPySpace c = false)
    (hw : ∀ x ∈ w, isPySpace x = false) : words (c :: w) = [c :: w] := by
  rw [words_nonspace hc]
  have h1 : w.takeWhile nonSpace = w :=
    jmTakeWhileAll (fun x hx => by simp [nonSpace, hw x hx])
  have h2 : w.dropWhile nonSpace = [] :=
    jmDropWhileAll (fun x hx => by simp [nonSpace, hw x hx])
  rw [h1, h2, words_nil]

theorem words_word_append {c : Char} {w r : List Char} (hc : isPySpace c = false)
    (hw : ∀ x ∈ w, isPySpace x = false) :
    words (c :: (w ++ ' ' :: r)) = (c :: w) :: words r := by
  rw [words_nonspace hc]
  have hsp : nonSpace ' ' = false := by decide
  have h := jmTakeWhileAppend (p := nonSpace) hsp (w := w) (r := r)
    (fun x hx => by simp [nonSpace, hw x hx])
  rw [h.1, h.2, words_space jmSpaceSpace]

theorem words_joinWords : ∀ (ws : List (List Char)),
    (∀ w ∈ ws, w ≠ [] ∧ ∀ x ∈ w, isPySpace x = false) →
    words (joinWords ws) = ws := by
  intro ws
  induction ws with
  | nil => intro _; simp [joinWords, words_nil]
  | cons w ws ih =>
    intro h
    obtain ⟨hne, hsp⟩ := h w (by simp)
    obtain ⟨c, w', rfl⟩ : ∃ c w', w = c :: w' := by
      cases w with
      | nil => exact absurd rfl hne
      | cons c w' => exact ⟨c, w', rfl⟩
    have hc : isPySpace c = false := hsp c (by simp)
    have hw' : ∀ x ∈ w', isPySpace x = false := fun x hx => hsp x (by simp [hx])
    cases ws with
    | nil =>
      show words (joinWords [c :: w']) = [c :: w']
      have : joinWords [c :: w'] = c :: w' := rfl
      rw [this, words_of_word hc hw']
    | cons u us =>
      rw [joinWords_cons (by simp)]
      show words (c :: (w' ++ ' ' :: joinWords (u :: us))) = _
      rw [words_word_append hc hw', ih (fun v hv => h v (by simp [hv]))]

theorem normWs_idem (cs : List Char) : normWs (normWs cs) = normWs cs := by
  show joinWords (words (joinWords (words cs))) = joinWords (words cs)
  rw [words_joinWords (words cs) (words_wf cs)]

/-! ### HTML tag occurrences and `stripHtml` -/

theorem normWs_nil : normWs [] = [] := rfl

theorem normWs_space {c : Char} {rest : List Char} (h : isPySpace c = true) :
    normWs (c :: rest) = normWs rest := by
  show joinWords (words (c :: rest)) = joinWords (words rest)
  rw [words_space h]

theorem hasTag_cons {c : Char} {cs : List Char} (h : hasTag cs) : hasTag (c :: cs) := by
  obtain ⟨a, d, b, rfl, hd, hb⟩ := h
  exact ⟨c :: a, d, b, rfl, hd, hb⟩

theorem hasTag_extend {s t : List Char} (h : hasTag s) : hasTag (s ++ t) := by
  obtain ⟨a, d, b, rfl, hd, hb⟩ := h
  refine ⟨a, d, b ++ t, by simp, hd, by simp [hb]⟩

theorem hasTag_append {s cs : List Char} (h : hasTag cs) : hasTag (s ++ cs) := by
  obtain ⟨a, d, b, rfl, hd, hb⟩ := h
  exact ⟨s ++ a, d, b, by simp, hd, hb⟩

theorem hasTag_cons_elim {x : Char} {cs : List Char} (h : hasTag (x :: cs)) :
    (x = '<' ∧ ∃ d b, cs = d :: b ∧ d ≠ '>' ∧ '>' ∈ b) ∨ hasTag cs := by
  obtain ⟨a, d, b, heq, hd, hb⟩ := h
  cases a with
  | nil =>
    simp only [List.nil_append, List.cons.injEq] at heq
    exact Or.inl ⟨heq.1, d, b, heq.2, hd, hb⟩
  | cons y a' =>
    simp only [List.cons_append, List.cons.injEq] at heq
    exact Or.inr ⟨a', d, b, heq.2, hd, hb⟩

theorem hasTag_lt_mem {cs : List Char} (h : hasTag cs) : '<' ∈ cs := by
  obtain ⟨a, d, b, rfl, _, _⟩ := h
  simp

theorem mem_stripHtml : ∀ (cs : List Char) (x : Char), x ∈ stripHtml cs → x ∈ cs ∨ x = ' ' := by
  have key : ∀ (n : Nat) (cs : List Char), cs.length ≤ n → ∀ x, x ∈ stripHtml cs →
      x ∈ cs ∨ x = ' ' := by
    intro n
    induction n with
    | zero =>
      intro cs hlen x hx
      have : cs = [] := List.eq_nil_of_length_eq_zero (Nat.le_zero.mp hlen)
      subst this
      rw [stripHtml_nil] at hx
      simp at hx
    | succ n ih =>
      intro cs hlen x hx
      cases cs with
      | nil => rw [stripHtml_nil] at hx; simp at hx
      | cons c rest =>
        simp only [List.length_cons, Nat.add_le_add_iff_right] at hlen
        have keepCase : x ∈ c :: stripHtml rest → x ∈ c :: rest ∨ x = ' ' := by
          intro hx
          rcases List.mem_cons.mp hx with hx | hx
          · exact Or.inl (by simp [hx])
          · rcases ih rest hlen x hx with h | h
            · exact Or.inl (by simp [h])
            · exact Or.inr h
        by_cases hc : c = '<'
        · subst hc
          by_cases ht : rest.takeWhile notGt = []
          · rw [stripHtml_cons_keep (Or.inr (Or.inl ht))] at hx
            exact keepCase hx
          · cases hdw : rest.dropWhile notGt with
            | nil =>
              rw [stripHtml_cons_keep (Or.inr (Or.inr hdw))] at hx
              exact keepCase hx
            | cons hd rem =>
              have hd' : hd = '>' := by
                have := jmDropWhileHead hdw
                simpa [notGt] using this
              subst hd'
              rw [stripHtml_cons_match ht hdw] at hx
              rcases List.mem_cons.mp hx with hx | hx
              · exact Or.inr hx
              · have hrem : rem.length ≤ n := by
                  have h1 : (rest.dropWhile notGt).length ≤ rest.length :=
                    (List.dropWhile_sublist notGt).length_le
                  rw [hdw] at h1
                  simp at h1
                  omega
                rcases ih rem hrem x hx with h | h
                · refine Or.inl (List.mem_cons_of_mem _ ?_)
                  have : rest = rest.takeWhile notGt ++ '>' :: rem := by
                    rw [← hdw, List.takeWhile_append_dropWhile]
                  rw [this]
                  simp [h]
                · exact Or.inr h
        · rw [stripHtml_cons_keep (Or.inl hc)] at hx
          exact keepCase hx
  intro cs
  exact key cs.length cs (le_refl _)

theorem stripHtml_no_tag : ∀ (cs : List Char), ¬ hasTag (stripHtml cs) := by
  have key : ∀ (n : Nat) (cs : List Char), cs.length ≤ n → ¬ hasTag (stripHtml cs) := by
    intro n
    induction n with
    | zero =>
      intro cs hlen h
      have : cs = [] := List.eq_nil_of_length_eq_zero (Nat.le_zero.mp hlen)
      subst this
      rw [stripHtml_nil] at h
      obtain ⟨a, d, b, heq, _, _⟩ := h
      simp at heq
    | succ n ih =>
      intro cs hlen h
      cases cs with
      | nil =>
        rw [stripHtml_nil] at h
        obtain ⟨a, d, b, heq, _, _⟩ := h
        simp at heq
      | cons c rest =>
        simp only [List.length_cons, Nat.add_le_add_iff_right] at hlen
        by_cases hc : c = '<'
        · subst hc
          by_cases ht : rest.takeWhile notGt = []
          · rw [stripHtml_cons_keep (Or.inr (Or.inl ht))] at h
            rcases hasTag_cons_elim h with ⟨_, d, b, hdb, hd, hb⟩ | h
            · have hgt : '>' ∈ stripHtml rest := by rw [hdb]; simp [hb]
              have hgtr : '>' ∈ rest := by
                rcases mem_stripHtml rest '>' hgt with h' | h'
                · exact h'
                · simp at h'
              obtain ⟨e, rest₂, rfl⟩ : ∃ e rest₂, rest = e :: rest₂ := by
                cases rest with
                | nil => simp at hgtr
                | cons e r₂ => exact ⟨e, r₂, rfl⟩
              have he : e = '>' := by
                by_contra hne
                have : notGt e = true := by simp [notGt, hne]
                rw [List.takeWhile_cons_of_pos this] at ht
                simp at ht
              subst he
              rw [stripHtml_cons_keep (Or.inl (by decide))] at hdb
              cases hdb
              exact hd rfl
            · exact ih rest hlen h
          · cases hdw : rest.dropWhile notGt with
            | nil =>
              rw [stripHtml_cons_keep (Or.inr (Or.inr hdw))] at h
              have hnogt : '>' ∉ rest := by
                intro hmem
                have hall := List.dropWhile_eq_nil_iff.mp hdw
                have := hall '>' hmem
                simp [notGt] at this
              rcases hasTag_cons_elim h with ⟨_, d, b, hdb, hd, hb⟩ | h
              · have hgt : '>' ∈ stripHtml rest := by rw [hdb]; simp [hb]
                rcases mem_stripHtml rest '>' hgt with h' | h'
                · exact hnogt h'
                · simp at h'
              · exact ih rest hlen h
            | cons hd rem =>
              have hd' : hd = '>' := by
                have := jmDropWhileHead hdw
                simpa [notGt] using this
              subst hd'
              rw [stripHtml_cons_match ht hdw] at h
              rcases hasTag_cons_elim h with ⟨hsp, _⟩ | h
              · simp at hsp
              · have hrem : rem.length ≤ n := by
                  have h1 : (rest.dropWhile notGt).length ≤ rest.length :=
                    (List.dropWhile_sublist notGt).length_le
                  rw [hdw] at h1
                  simp at h1
                  omega
                exact ih rem hrem h
        · rw [stripHtml_cons_keep (Or.inl hc)] at h
          rcases hasTag_cons_elim h with ⟨hceq, _⟩ | h
          · exact hc hceq
          · exact ih rest hlen h
  intro cs
  exact key cs.length cs (le_refl _)

theorem stripHtml_id_of_no_tag : ∀ (cs : List Char), ¬ hasTag cs → stripHtml cs = cs := by
  have key : ∀ (n : Nat) (cs : List Char), cs.length ≤ n → ¬ hasTag cs →
      stripHtml cs = cs := by
    intro n
    induction n with
    | zero =>
      intro cs hlen _
      have : cs = [] := List.eq_nil_of_length_eq_zero (Nat.le_zero.mp hlen)
      subst this
      exact stripHtml_nil
    | succ n ih =>
      intro cs hlen h
      cases cs with
      | nil => exact stripHtml_nil
      | cons c rest =>
        simp only [List.length_cons, Nat.add_le_add_iff_right] at hlen
        have hrest : ¬ hasTag rest := fun h' => h (hasTag_cons h')
        have keep : stripHtml (c :: rest) = c :: stripHtml rest → stripHtml (c :: rest) = c :: rest := by
          intro he
          rw [he, ih rest hlen hrest]
        by_cases hc : c = '<'
        · subst hc
          by_cases ht : rest.takeWhile notGt = []
          · exact keep (stripHtml_cons_keep (Or.inr (Or.inl ht)))
          · cases hdw : rest.dropWhile notGt with
            | nil => exact keep (stripHtml_cons_keep (Or.inr (Or.inr hdw)))
            | cons hd rem =>
              exfalso
              have hd' : hd = '>' := by
                have := jmDropWhileHead hdw
                simpa [notGt] using this
              subst hd'
              obtain ⟨d, r₀, hr, hpd⟩ := jmTakeWhileNeNil ht
              have hrdecomp : rest = rest.takeWhile notGt ++ '>' :: rem := by
                rw [← hdw, List.takeWhile_append_dropWhile]
              obtain ⟨tw', htw⟩ : ∃ tw', rest.takeWhile notGt = d :: tw' := by
                rw [hr, List.takeWhile_cons_of_pos hpd]
                exact ⟨_, rfl⟩
              apply h
              refine ⟨[], d, tw' ++ '>' :: rem, ?_, ?_, by simp⟩
              · rw [List.nil_append]
                rw [hrdecomp, htw]
                simp
              · intro hd
                rw [hd] at hpd
                simp [notGt] at hpd
        · exact keep (stripHtml_cons_keep (Or.inl hc))
  intro cs
  exact key cs.length cs (le_refl _)

theorem hasTag_normWs : ∀ (cs : List Char), hasTag (normWs cs) → hasTag cs := by
  have key : ∀ (n : Nat) (cs : List Char), cs.length ≤ n → hasTag (normWs cs) → hasTag cs := by
    intro n
    induction n with
    | zero =>
      intro cs hlen h
      have : cs = [] := List.eq_nil_of_length_eq_zero (Nat.le_zero.mp hlen)
      subst this
      rw [normWs_nil] at h
      obtain ⟨a, d, b, heq, _, _⟩ := h
      simp at heq
    | succ n ih =>
      intro cs hlen h
      cases cs with
      | nil =>
        rw [normWs_nil] at h
        obtain ⟨a, d, b, heq, _, _⟩ := h
        simp at heq
      | cons c rest =>
        simp only [List.length_cons, Nat.add_le_add_iff_right] at hlen
        by_cases hc : isPySpace c
        · rw [normWs_space hc] at h
          exact hasTag_cons (ih rest hlen h)
        · have hc' : isPySpace c = false := by simpa using hc
          have hdwlen : (rest.dropWhile nonSpace).length ≤ n :=
            le_trans ((List.dropWhile_sublist nonSpace).length_le) hlen
          have hrest : rest = rest.takeWhile nonSpace ++ rest.dropWhile nonSpace :=
            (List.takeWhile_append_dropWhile nonSpace rest).symm
          have hword : words (c :: rest) =
              (c :: rest.takeWhile nonSpace) :: words (rest.dropWhile nonSpace) :=
            words_nonspace hc'
          have fromDw : hasTag (rest.dropWhile nonSpace) → hasTag (c :: rest) := by
            intro hdw
            have : hasTag (rest.takeWhile nonSpace ++ rest.dropWhile nonSpace) :=
              hasTag_append hdw
            rw [← hrest] at this
            exact hasTag_cons this
          cases hws : words (rest.dropWhile nonSpace) with
          | nil =>
            have hn : normWs (c :: rest) = c :: rest.takeWhile nonSpace := by
              show joinWords (words (c :: rest)) = _
              rw [hword, hws]
              rfl
            rw [hn] at h
            have : hasTag ((c :: rest.takeWhile nonSpace) ++ rest.dropWhile nonSpace) :=
              hasTag_extend h
            rw [List.cons_append, ← hrest] at this
            exact this
          | cons w' ws' =>
            have hn : normWs (c :: rest) =
                (c :: rest.takeWhile nonSpace) ++ ' ' :: normWs (rest.dropWhile nonSpace) := by
              show joinWords (words (c :: rest)) = _
              rw [hword, joinWords_cons (by rw [hws]; simp)]
              rfl
            rw [hn] at h
            obtain ⟨a, d, b, heq, hd, hb⟩ := h
            rcases List.append_eq_append_iff.mp heq with ⟨t, ht1, ht2⟩ | ⟨t, ht1, ht2⟩
            · cases t with
              | nil =>
                simp only [List.nil_append] at ht2
                cases ht2
              | cons x t' =>
                simp only [List.cons_append, List.cons.injEq] at ht2
                have : hasTag (normWs (rest.dropWhile nonSpace)) := ⟨t', d, b, ht2.2, hd, hb⟩
                exact fromDw (ih _ hdwlen this)
            · cases t with
              | nil =>
                simp only [List.nil_append] at ht2
                cases ht2
              | cons x t' =>
                simp only [List.cons_append, List.cons.injEq] at ht2
                obtain ⟨hx, ht2'⟩ := ht2
                cases t' with
                | nil =>
                  simp only [List.nil_append, List.cons.injEq] at ht2'
                  obtain ⟨hdsp, hbn⟩ := ht2'
                  have hgt : '>' ∈ rest.dropWhile nonSpace := by
                    rw [hbn] at hb
                    rcases mem_normWs hb with h' | h'
                    · exact h'
                    · simp at h'
                  obtain ⟨e, dw', hdw⟩ : ∃ e dw', rest.dropWhile nonSpace = e :: dw' := by
                    cases hdwe : rest.dropWhile nonSpace with
                    | nil => rw [hdwe] at hgt; simp at hgt
                    | cons e dw' => exact ⟨e, dw', rfl⟩
                  have hesp : isPySpace e = true := by
                    have := jmDropWhileHead hdw
                    simpa [nonSpace] using this
                  have hene : e ≠ '>' := by
                    intro he
                    rw [he] at hesp
                    simp [isPySpace] at hesp
                  have hgt' : '>' ∈ dw' := by
                    rw [hdw] at hgt
                    rcases List.mem_cons.mp hgt with h' | h'
                    · exact absurd h'.symm hene
                    · exact h'
                  refine ⟨a, e, dw', ?_, hene, hgt'⟩
                  have : c :: rest = (c :: rest.takeWhile nonSpace) ++ rest.dropWhile nonSpace := by
                    rw [List.cons_append, ← hrest]
                  rw [this, ht1, hdw, hx]
                  simp
                | cons y t'' =>
                  simp only [List.cons_append, List.cons.injEq] at ht2'
                  obtain ⟨hdy, hbt⟩ := ht2'
                  have hgttail : '>' ∈ t'' ++ rest.dropWhile nonSpace := by
                    rw [hbt] at hb
                    rcases List.mem_append.mp hb with h' | h'
                    · exact List.mem_append_left _ h'
                    · rcases List.mem_cons.mp h' with h'' | h''
                      · simp at h''
                      · refine List.mem_append_right _ ?_
                        rcases mem_normWs h'' with h3 | h3
                        · exact h3
                        · simp at h3
                  refine ⟨a, d, t'' ++ rest.dropWhile nonSpace, ?_, hd, hgttail⟩
                  have : c :: rest = (c :: rest.takeWhile nonSpace) ++ rest.dropWhile nonSpace := by
                    rw [List.cons_append, ← hrest]
                  rw [this, ht1, hx, hdy]
                  simp
  intro cs
  exact key cs.length cs (le_refl _)

/-! ### URL occurrences, `stripUrls`, and `allowFilter` -/

theorem preChars_nonspace : ∀ pre ∈ [httpPre, httpsPre, wwwPre], ∀ x ∈ pre,
    isPySpace x = false := by decide

theorem startsWithL_decomp : ∀ (p cs : List Char), startsWithL p cs = true →
    cs = p ++ cs.drop p.length := by
  intro p
  induction p with
  | nil => intro cs _; simp
  | cons x p ih =>
    intro cs h
    cases cs with
    | nil => simp [startsWithL] at h
    | cons c rest =>
      simp only [startsWithL, Bool.and_eq_true, beq_iff_eq] at h
      obtain ⟨rfl, h2⟩ := h
      simp only [List.length_cons, List.cons_append, List.drop_succ_cons]
      rw [List.cons.injEq]
      exact ⟨rfl, ih rest h2⟩

theorem startsWithL_append : ∀ (p t : List Char), startsWithL p (p ++ t) = true := by
  intro p
  induction p with
  | nil => intro t; rfl
  | cons x p ih => intro t; simp [startsWithL, ih]

theorem urlStart_match {cs : List Char} (h : urlStart cs) : ∃ k, urlMatchLen cs = some k := by
  obtain ⟨pre, hpre, e, r, rfl, he⟩ := h
  simp only [List.mem_cons, List.mem_singleton, List.not_mem_nil, or_false] at hpre
  rcases hpre with rfl | rfl | rfl
  · have hs : startsWithL httpPre (httpPre ++ e :: r) = true := startsWithL_append _ _
    rw [urlMatchLen, if_pos hs]
    have h7 : (httpPre ++ e :: r).drop 7 = e :: r := rfl
    simp only [h7]
    rw [List.takeWhile_cons_of_pos (by simp [nonSpace, he])]
    simp
  · have hs1 : startsWithL httpPre (httpsPre ++ e :: r) = false := rfl
    have hs : startsWithL httpsPre (httpsPre ++ e :: r) = true := startsWithL_append _ _
    rw [urlMatchLen, if_neg (by simp [hs1]), if_pos hs]
    have h8 : (httpsPre ++ e :: r).drop 8 = e :: r := rfl
    simp only [h8]
    rw [List.takeWhile_cons_of_pos (by simp [nonSpace, he])]
    simp
  · have hs1 : startsWithL httpPre (wwwPre ++ e :: r) = false := rfl
    have hs2 : startsWithL httpsPre (wwwPre ++ e :: r) = false := rfl
    have hs : startsWithL wwwPre (wwwPre ++ e :: r) = true := startsWithL_append _ _
    rw [urlMatchLen, if_neg (by simp [hs1]), if_neg (by simp [hs2]), if_pos hs]
    have h4 : (wwwPre ++ e :: r).drop 4 = e :: r := rfl
    simp only [h4]
    rw [List.takeWhile_cons_of_pos (by simp [nonSpace, he])]
    simp

theorem match_urlStart {cs : List Char} {k : Nat} (h : urlMatchLen cs = some k) :
    urlStart cs := by
  rw [urlMatchLen] at h
  split_ifs at h with h1 h2 h3
  · refine ⟨httpPre, by simp, ?_⟩
    have hd := startsWithL_decomp httpPre cs h1
    have hl7 : httpPre.length = 7 := rfl
    rw [hl7] at hd
    by_cases htk : (cs.drop 7).takeWhile nonSpace = []
    · rw [if_pos htk] at h; cases h
    · obtain ⟨e, r, her, hpe⟩ := jmTakeWhileNeNil htk
      refine ⟨e, r, ?_, jmNonSpaceTrue hpe⟩
      rw [← her, ← hd]
  · refine ⟨httpsPre, by simp, ?_⟩
    have hd := startsWithL_decomp httpsPre cs h2
    have hl8 : httpsPre.length = 8 := rfl
    rw [hl8] at hd
    by_cases htk : (cs.drop 8).takeWhile nonSpace = []
    · rw [if_pos htk] at h; cases h
    · obtain ⟨e, r, her, hpe⟩ := jmTakeWhileNeNil htk
      refine ⟨e, r, ?_, jmNonSpaceTrue hpe⟩
      rw [← her, ← hd]
  · refine ⟨wwwPre, by simp, ?_⟩
    have hd := startsWithL_decomp wwwPre cs h3
    have hl4 : wwwPre.length = 4 := rfl
    rw [hl4] at hd
    by_cases htk : (cs.drop 4).takeWhile nonSpace = []
    · rw [if_pos htk] at h; cases h
    · obtain ⟨e, r, her, hpe⟩ := jmTakeWhileNeNil htk
      refine ⟨e, r, ?_, jmNonSpaceTrue hpe⟩
      rw [← her, ← hd]

theorem urlStart_head {cs : List Char} (h : urlStart cs) :
    ∃ tl, cs = 'h' :: tl ∨ cs = 'w' :: tl := by
  obtain ⟨pre, hpre, e, r, rfl, _⟩ := h
  simp only [List.mem_cons, List.mem_singleton, List.not_mem_nil, or_false] at hpre
  rcases hpre with rfl | rfl | rfl
  · exact ⟨_, Or.inl rfl⟩
  · exact ⟨_, Or.inl rfl⟩
  · exact ⟨_, Or.inr rfl⟩

theorem urlStart_extend {s t : List Char} (h : urlStart s) : urlStart (s ++ t) := by
  obtain ⟨pre, hpre, e, r, rfl, he⟩ := h
  exact ⟨pre, hpre, e, r ++ t, by simp, he⟩

theorem hasUrl_cons {c : Char} {cs : List Char} (h : hasUrl cs) : hasUrl (c :: cs) := by
  obtain ⟨a, b, rfl, hb⟩ := h
  exact ⟨c :: a, b, rfl, hb⟩

theorem hasUrl_append {s cs : List Char} (h : hasUrl cs) : hasUrl (s ++ cs) := by
  obtain ⟨a, b, rfl, hb⟩ := h
  exact ⟨s ++ a, b, by simp, hb⟩

theorem hasUrl_extend {s t : List Char} (h : hasUrl s) : hasUrl (s ++ t) := by
  obtain ⟨a, b, rfl, hb⟩ := h
  exact ⟨a, b ++ t, by simp, urlStart_extend hb⟩

theorem hasUrl_cons_elim {x : Char} {cs : List Char} (h : hasUrl (x :: cs)) :
    urlStart (x :: cs) ∨ hasUrl cs := by
  obtain ⟨a, b, heq, hb⟩ := h
  cases a with
  | nil => simp only [List.nil_append] at heq; subst heq; exact Or.inl hb
  | cons y a' =>
    simp only [List.cons_append, List.cons.injEq] at heq
    exact Or.inr ⟨a', b, heq.2, hb⟩

theorem urlStart_of_head_tail {c : Char} {rest tl : List Char}
    (h : urlStart (c :: tl)) (hback : ∀ P, (∀ x ∈ P, isPySpace x = false) →
      (∃ t, tl = P ++ t) → ∃ t', rest = P ++ t') :
    urlStart (c :: rest) := by
  obtain ⟨pre, hpre, e, r, heq, he⟩ := h
  obtain ⟨p₀, pre', hp⟩ : ∃ p₀ pre', pre = p₀ :: pre' := by
    have : pre ≠ [] := by
      simp only [List.mem_cons, List.mem_singleton, List.not_mem_nil, or_false] at hpre
      rcases hpre with rfl | rfl | rfl <;> simp [httpPre, httpsPre, wwwPre]
    cases pre with
    | nil => exact absurd rfl this
    | cons p₀ pre' => exact ⟨p₀, pre', rfl⟩
  subst hp
  simp only [List.cons_append, List.cons.injEq] at heq
  obtain ⟨rfl, htl⟩ := heq
  have hsplit : ∃ t, tl = (pre' ++ [e]) ++ t := ⟨r, by rw [htl]; simp⟩
  have hns : ∀ x ∈ pre' ++ [e], isPySpace x = false := by
    intro x hx
    rcases List.mem_append.mp hx with hx | hx
    · exact preChars_nonspace _ hpre x (by simp [hx])
    · rw [List.mem_singleton.mp hx]; exact he
  obtain ⟨t', hrest⟩ := hback (pre' ++ [e]) hns hsplit
  refine ⟨c :: pre', hpre, e, t', ?_, he⟩
  rw [hrest]
  simp

theorem stripUrls_nonspace_back : ∀ (P : List Char), (∀ x ∈ P, isPySpace x = false) →
    ∀ (X : List Char), (∃ t, stripUrls X = P ++ t) → ∃ t', X = P ++ t' := by
  intro P
  induction P with
  | nil => intro _ X _; exact ⟨X, rfl⟩
  | cons p P' ih =>
    intro hns X hex
    cases X with
    | nil =>
      obtain ⟨t, ht⟩ := hex
      rw [stripUrls_nil] at ht
      simp at ht
    | cons c rest =>
      obtain ⟨t, ht⟩ := hex
      cases hu : urlMatchLen (c :: rest) with
      | some k =>
        rw [stripUrls_cons_match hu] at ht
        simp only [List.cons_append, List.cons.injEq] at ht
        have : isPySpace p = false := hns p (by simp)
        rw [← ht.1] at this
        simp [isPySpace] at this
      | none =>
        rw [stripUrls_cons_none hu] at ht
        simp only [List.cons_append, List.cons.injEq] at ht
        obtain ⟨rfl, ht2⟩ := ht
        obtain ⟨t', hrest⟩ := ih (fun x hx => hns x (by simp [hx])) rest ⟨t, ht2⟩
        exact ⟨t', by rw [hrest]; rfl⟩

theorem stripUrls_no_url : ∀ (cs : List Char), ¬ hasUrl (stripUrls cs) := by
  have key : ∀ (n : Nat) (cs : List Char), cs.length ≤ n → ¬ hasUrl (stripUrls cs) := by
    intro n
    induction n with
    | zero =>
      intro cs hlen h
      have : cs = [] := List.eq_nil_of_length_eq_zero (Nat.le_zero.mp hlen)
      subst this
      rw [stripUrls_nil] at h
      obtain ⟨a, b, heq, hb⟩ := h
      obtain ⟨tl, htl⟩ := urlStart_head hb
      rcases htl with rfl | rfl <;> simp at heq
    | succ n ih =>
      intro cs hlen h
      cases cs with
      | nil =>
        rw [stripUrls_nil] at h
        obtain ⟨a, b, heq, hb⟩ := h
        obtain ⟨tl, htl⟩ := urlStart_head hb
        rcases htl with rfl | rfl <;> simp at heq
      | cons c rest =>
        simp only [List.length_cons, Nat.add_le_add_iff_right] at hlen
        cases hu : urlMatchLen (c :: rest) with
        | some k =>
          rw [stripUrls_cons_match hu] at h
          rcases hasUrl_cons_elim h with hs | h
          · obtain ⟨tl, htl⟩ := urlStart_head hs
            rcases htl with htl | htl <;> simp at htl
          · have hdlen : (rest.drop (k - 1)).length ≤ n := by
              rw [List.length_drop]; omega
            exact ih _ hdlen h
        | none =>
          rw [stripUrls_cons_none hu] at h
          rcases hasUrl_cons_elim h with hs | h
          · have hstart : urlStart (c :: rest) := by
              refine urlStart_of_head_tail hs ?_
              intro P hns hex
              exact stripUrls_nonspace_back P hns rest hex
            obtain ⟨k, hk⟩ := urlStart_match hstart
            rw [hu] at hk
            cases hk
          · exact ih rest hlen h
  intro cs
  exact key cs.length cs (le_refl _)

theorem stripUrls_id_of_no_url : ∀ (cs : List Char), ¬ hasUrl cs → stripUrls cs = cs := by
  have key : ∀ (n : Nat) (cs : List Char), cs.length ≤ n → ¬ hasUrl cs →
      stripUrls cs = cs := by
    intro n
    induction n with
    | zero =>
      intro cs hlen _
      have : cs = [] := List.eq_nil_of_length_eq_zero (Nat.le_zero.mp hlen)
      subst this
      exact stripUrls_nil
    | succ n ih =>
      intro cs hlen h
      cases cs with
      | nil => exact stripUrls_nil
      | cons c rest =>
        simp only [List.length_cons, Nat.add_le_add_iff_right] at hlen
        cases hu : urlMatchLen (c :: rest) with
        | some k =>
          exfalso
          exact h ⟨[], c :: rest, rfl, match_urlStart hu⟩
        | none =>
          rw [stripUrls_cons_none hu]
          rw [ih rest hlen (fun h' => h (hasUrl_cons h'))]
  intro cs
  exact key cs.length cs (le_refl _)

theorem mem_stripUrls : ∀ (cs : List Char) (x : Char), x ∈ stripUrls cs → x ∈ cs ∨ x = ' ' := by
  have key : ∀ (n : Nat) (cs : List Char), cs.length ≤ n → ∀ x, x ∈ stripUrls cs →
      x ∈ cs ∨ x = ' ' := by
    intro n
    induction n with
    | zero =>
      intro cs hlen x hx
      have : cs = [] := List.eq_nil_of_length_eq_zero (Nat.le_zero.mp hlen)
      subst this
      rw [stripUrls_nil] at hx
      simp at hx
    | succ n ih =>
      intro cs hlen x hx
      cases cs with
      | nil => rw [stripUrls_nil] at hx; simp at hx
      | cons c rest =>
        simp only [List.length_cons, Nat.add_le_add_iff_right] at hlen
        cases hu : urlMatchLen (c :: rest) with
        | some k =>
          rw [stripUrls_cons_match hu] at hx
          rcases List.mem_cons.mp hx with hx | hx
          · exact Or.inr hx
          · have hdlen : (rest.drop (k - 1)).length ≤ n := by
              rw [List.length_drop]; omega
            rcases ih _ hdlen x hx with h' | h'
            · exact Or.inl (List.mem_cons_of_mem _ (List.mem_of_mem_drop h'))
            · exact Or.inr h'
        | none =>
          rw [stripUrls_cons_none hu] at hx
          rcases List.mem_cons.mp hx with hx | hx
          · exact Or.inl (by simp [hx])
          · rcases ih rest hlen x hx with h' | h'
            · exact Or.inl (List.mem_cons_of_mem _ h')
            · exact Or.inr h'
  intro cs
  exact key cs.length cs (le_refl _)

/-! ### `allowFilter`, `replaceNbsp`, and URL transport through `normWs` -/

theorem mem_allowFilter {cs : List Char} {x : Char} (h : x ∈ allowFilter cs) :
    isAllowedDescChar x = true := by
  obtain ⟨c, _, hc⟩ := List.mem_map.mp h
  by_cases hac : isAllowedDescChar c
  · rw [if_pos hac] at hc; rw [← hc]; exact hac
  · rw [if_neg hac] at hc; rw [← hc]; decide

theorem mem_allowFilter_src {cs : List Char} {x : Char} (h : x ∈ allowFilter cs) :
    x ∈ cs ∨ x = ' ' := by
  obtain ⟨c, hcm, hc⟩ := List.mem_map.mp h
  by_cases hac : isAllowedDescChar c
  · rw [if_pos hac] at hc; rw [← hc]; exact Or.inl hcm
  · rw [if_neg hac] at hc; exact Or.inr hc.symm

theorem allowFilter_id {cs : List Char} (h : ∀ x ∈ cs, isAllowedDescChar x = true) :
    allowFilter cs = cs := by
  have : ∀ x ∈ cs, (if isAllowedDescChar x then x else ' ') = x := by
    intro x hx
    rw [if_pos (h x hx)]
  calc allowFilter cs = cs.map id := List.map_congr_left this
  _ = cs := List.map_id cs

theorem allowChar_back {c x : Char} (h : (if isAllowedDescChar c then c else ' ') = x)
    (hx : isPySpace x = false) : c = x := by
  by_cases hac : isAllowedDescChar c
  · rw [if_pos hac] at h; exact h
  · rw [if_neg hac] at h
    rw [← h] at hx
    simp [isPySpace] at hx

theorem mapAllow_nonspace_back : ∀ (P : List Char), (∀ x ∈ P, isPySpace x = false) →
    ∀ (l : List Char), allowFilter l = P → l = P := by
  intro P
  induction P with
  | nil =>
    intro _ l h
    simpa [allowFilter] using h
  | cons p P' ih =>
    intro hns l h
    cases l with
    | nil => simp [allowFilter] at h
    | cons c l' =>
      simp only [allowFilter, List.map_cons, List.cons.injEq] at h
      obtain ⟨h1, h2⟩ := h
      have hc : c = p := allowChar_back h1 (hns p (by simp))
      rw [List.cons.injEq]
      exact ⟨hc, ih (fun x hx => hns x (by simp [hx])) l' h2⟩

theorem hasUrl_allowFilter {l : List Char} (h : hasUrl (allowFilter l)) : hasUrl l := by
  obtain ⟨a, b, heq, us⟩ := h
  have heq' : l.map (fun c => if isAllowedDescChar c then c else ' ') = a ++ b := heq
  rw [List.map_eq_append_iff] at heq'
  obtain ⟨a', b', rfl, ha, hb⟩ := heq'
  obtain ⟨pre, hpre, e, r, hbe, he⟩ := us
  have hb2 : b'.map (fun c => if isAllowedDescChar c then c else ' ') = (pre ++ [e]) ++ r := by
    rw [hb, hbe]; simp
  rw [List.map_eq_append_iff] at hb2
  obtain ⟨u, v, rfl, hu, hv⟩ := hb2
  have hns : ∀ x ∈ pre ++ [e], isPySpace x = false := by
    intro x hx
    rcases List.mem_append.mp hx with hx | hx
    · exact preChars_nonspace _ hpre x hx
    · rw [List.mem_singleton.mp hx]; exact he
  have hu' : u = pre ++ [e] := mapAllow_nonspace_back (pre ++ [e]) hns u hu
  refine ⟨a', u ++ v, rfl, ?_⟩
  rw [hu']
  exact ⟨pre, hpre, e, v, by simp, he⟩

theorem replaceNbsp_no_nbsp (cs : List Char) : Char.ofNat 0xa0 ∉ replaceNbsp cs := by
  intro h
  obtain ⟨c, _, hc⟩ := List.mem_map.mp h
  by_cases hn : c = Char.ofNat 0xa0
  · rw [if_pos hn] at hc
    exact absurd hc (by decide)
  · rw [if_neg hn] at hc
    exact hn hc

theorem replaceNbsp_id {cs : List Char} (h : Char.ofNat 0xa0 ∉ cs) : replaceNbsp cs = cs := by
  have : ∀ x ∈ cs, (if x = Char.ofNat 0xa0 then ' ' else x) = x := by
    intro x hx
    rw [if_neg (fun he => h (by rw [← he]; exact hx))]
  calc replaceNbsp cs = cs.map id := List.map_congr_left this
  _ = cs := List.map_id cs

theorem hasUrl_normWs : ∀ (cs : List Char), hasUrl (normWs cs) → hasUrl cs := by
  have key : ∀ (n : Nat) (cs : List Char), cs.length ≤ n → hasUrl (normWs cs) → hasUrl cs := by
    intro n
    induction n with
    | zero =>
      intro cs hlen h
      have : cs = [] := List.eq_nil_of_length_eq_zero (Nat.le_zero.mp hlen)
      subst this
      rw [normWs_nil] at h
      obtain ⟨a, b, heq, us⟩ := h
      obtain ⟨tl, htl⟩ := urlStart_head us
      rcases htl with rfl | rfl <;> simp at heq
    | succ n ih =>
      intro cs hlen h
      cases cs with
      | nil =>
        rw [normWs_nil] at h
        obtain ⟨a, b, heq, us⟩ := h
        obtain ⟨tl, htl⟩ := urlStart_head us
        rcases htl with rfl | rfl <;> simp at heq
      | cons c rest =>
        simp only [List.length_cons, Nat.add_le_add_iff_right] at hlen
        by_cases hc : isPySpace c
        · rw [normWs_space hc] at h
          exact hasUrl_cons (ih rest hlen h)
        · have hc' : isPySpace c = false := by simpa using hc
          have hdwlen : (rest.dropWhile nonSpace).length ≤ n :=
            le_trans ((List.dropWhile_sublist nonSpace).length_le) hlen
          have hrest : rest = rest.takeWhile nonSpace ++ rest.dropWhile nonSpace :=
            (List.takeWhile_append_dropWhile nonSpace rest).symm
          cases hws : words (rest.dropWhile nonSpace) with
          | nil =>
            have hn : normWs (c :: rest) = c :: rest.takeWhile nonSpace := by
              show joinWords (words (c :: rest)) = _
              rw [words_nonspace hc', hws]
              rfl
            rw [hn] at h
            have h2 : hasUrl ((c :: rest.takeWhile nonSpace) ++ rest.dropWhile nonSpace) :=
              hasUrl_extend h
            rw [List.cons_append, ← hrest] at h2
            exact h2
          | cons w' ws' =>
            have hn : normWs (c :: rest) =
                (c :: rest.takeWhile nonSpace) ++ ' ' :: normWs (rest.dropWhile nonSpace) := by
              show joinWords (words (c :: rest)) = _
              rw [words_nonspace hc', joinWords_cons (by rw [hws]; simp)]
              rfl
            rw [hn] at h
            obtain ⟨a, b, heq, us⟩ := h
            rcases List.append_eq_append_iff.mp heq with ⟨a', h1, h2⟩ | ⟨t, h1, h2⟩
            · cases a' with
              | nil =>
                simp only [List.nil_append] at h2
                rw [← h2] at us
                obtain ⟨tl, htl⟩ := urlStart_head us
                rcases htl with htl | htl <;> simp at htl
              | cons x a'' =>
                simp only [List.cons_append, List.cons.injEq] at h2
                have hdw : hasUrl (normWs (rest.dropWhile nonSpace)) := ⟨a'', b, h2.2, us⟩
                have h3 : hasUrl (rest.takeWhile nonSpace ++ rest.dropWhile nonSpace) :=
                  hasUrl_append (ih _ hdwlen hdw)
                rw [← hrest] at h3
                exact hasUrl_cons h3
            · rw [h2] at us
              obtain ⟨pre, hpre, e, r, hbe, he⟩ := us
              rcases List.append_eq_append_iff.mp hbe with ⟨u, hu1, hu2⟩ | ⟨u, hu1, hu2⟩
              · cases u with
                | nil =>
                  simp only [List.nil_append, List.cons.injEq] at hu2
                  rw [← hu2.1] at he
                  simp [isPySpace] at he
                | cons u₀ u' =>
                  simp only [List.cons_append, List.cons.injEq] at hu2
                  have hu₀ : isPySpace u₀ = false := by
                    refine preChars_nonspace _ hpre u₀ ?_
                    rw [hu1]
                    simp
                  rw [← hu2.1] at hu₀
                  simp [isPySpace] at hu₀
              · cases u with
                | nil =>
                  simp only [List.nil_append, List.cons.injEq] at hu2
                  rw [hu2.1] at he
                  simp [isPySpace] at he
                | cons u₀ u'' =>
                  simp only [List.cons_append, List.cons.injEq] at hu2
                  obtain ⟨heu, _⟩ := hu2
                  rw [← heu] at hu1
                  refine ⟨a, pre ++ e :: (u'' ++ rest.dropWhile nonSpace), ?_,
                    ⟨pre, hpre, e, u'' ++ rest.dropWhile nonSpace, rfl, he⟩⟩
                  have hceq : c :: rest =
                      (c :: rest.takeWhile nonSpace) ++ rest.dropWhile nonSpace := by
                    rw [List.cons_append, ← hrest]
                  rw [hceq, h1, hu1]
                  simp
  intro cs
  exact key cs.length cs (le_refl _)

/-! ### Fixed points of the cleaning pipelines -/

theorem clean_text_eq {v : Cell} (hv : v.isna = false) :
    clean_text v = String.mk (normWs (stripHtml (replaceNbsp (Cell.pyStr v).data))) := by
  simp [clean_text, hv]

theorem clean_desc_eq {v : Cell} (hv : v.isna = false) :
    clean_description v =
      String.mk (normWs (allowFilter (stripUrls (stripHtml (replaceNbsp (Cell.pyStr v).data))))) := by
  simp [clean_description, hv]

theorem clean_text_fix_data (d : List Char) :
    normWs (stripHtml (replaceNbsp (normWs (stripHtml (replaceNbsp d))))) =
    normWs (stripHtml (replaceNbsp d)) := by
  have ha : replaceNbsp (normWs (stripHtml (replaceNbsp d))) =
      normWs (stripHtml (replaceNbsp d)) := by
    apply replaceNbsp_id
    intro hmem
    rcases mem_normWs hmem with h | h
    · rcases mem_stripHtml _ _ h with h2 | h2
      · exact replaceNbsp_no_nbsp d h2
      · exact absurd h2 (by decide)
    · exact absurd h (by decide)
  rw [ha]
  rw [stripHtml_id_of_no_tag _ (fun ht => stripHtml_no_tag (replaceNbsp d) (hasTag_normWs _ ht))]
  exact normWs_idem _

theorem clean_desc_chars (u : List Char) :
    ∀ x ∈ normWs (allowFilter u), isAllowedDescChar x = true := by
  intro x hx
  rcases mem_normWs hx with h | h
  · exact mem_allowFilter h
  · rw [h]; decide

theorem clean_desc_no_tag (u : List Char) : ¬ hasTag (normWs (allowFilter u)) := by
  intro ht
  have hlt := hasTag_lt_mem ht
  rcases mem_normWs hlt with h2 | h2
  · exact absurd (mem_allowFilter h2) (by decide)
  · exact absurd h2 (by decide)

theorem clean_desc_no_url {u : List Char} (hnourl : ¬ hasUrl u) :
    ¬ hasUrl (normWs (allowFilter u)) := by
  intro hu
  exact hnourl (hasUrl_allowFilter (hasUrl_normWs _ hu))

theorem clean_desc_fix_gen (u : List Char) (hno0 : Char.ofNat 0xa0 ∉ u)
    (hnourl : ¬ hasUrl u) :
    normWs (allowFilter (stripUrls (stripHtml (replaceNbsp (normWs (allowFilter u)))))) =
    normWs (allowFilter u) := by
  have ha : replaceNbsp (normWs (allowFilter u)) = normWs (allowFilter u) := by
    apply replaceNbsp_id
    intro h
    rcases mem_normWs h with h2 | h2
    · rcases mem_allowFilter_src h2 with h3 | h3
      · exact hno0 h3
      · exact absurd h3 (by decide)
    · exact absurd h2 (by decide)
  rw [ha]
  have hb : stripHtml (normWs (allowFilter u)) = normWs (allowFilter u) := by
    apply stripHtml_id_of_no_tag
    exact clean_desc_no_tag u
  rw [hb]
  have hc : stripUrls (normWs (allowFilter u)) = normWs (allowFilter u) := by
    apply stripUrls_id_of_no_url
    exact clean_desc_no_url hnourl
  rw [hc]
  have hd : allowFilter (normWs (allowFilter u)) = normWs (allowFilter u) := by
    apply allowFilter_id
    exact clean_desc_chars u
  rw [hd]
  exact normWs_idem _

theorem clean_desc_fix_data (d : List Char) :
    normWs (allowFilter (stripUrls (stripHtml (replaceNbsp
      (normWs (allowFilter (stripUrls (stripHtml (replaceNbsp d))))))))) =
    normWs (allowFilter (stripUrls (stripHtml (replaceNbsp d)))) := by
  apply clean_desc_fix_gen
  · intro h
    rcases mem_stripUrls _ _ h with h2 | h2
    · rcases mem_stripHtml _ _ h2 with h3 | h3
      · exact replaceNbsp_no_nbsp d h3
      · exact absurd h3 (by decide)
    · exact absurd h2 (by decide)
  · exact stripUrls_no_url _

/-! ### Claims about the text cleaners -/

/-- C1: for every input value, every character of the Description Sanitizer's
output `clean_description` is an ASCII letter, an ASCII digit, whitespace, or
one of the characters + # . - / % ( ) : , (the class `isAllowedDescChar`);
every character outside the class was replaced by a space by `allowFilter`
before whitespace collapsing. -/
theorem C1_allowlist_closure (v : Cell) (c : Char)
    (h : c ∈ (clean_description v).data) : isAllowedDescChar c = true := by
  by_cases hv : v.isna
  · have h0 : clean_description v = "" := by simp [clean_description, hv]
    rw [h0] at h
    have hnil : ("" : String).data = [] := rfl
    rw [hnil] at h
    simp at h
  · have hv' : v.isna = false := by simpa using hv
    rw [clean_desc_eq hv'] at h
    exact clean_desc_chars _ c h

theorem C1_allowlist_closure_witness :
    'B' ∈ (clean_description (Cell.str ("<p>Big C++ x%</p>"))).data ∧
    isAllowedDescChar 'B' = true :=
  ⟨by decide, C1_allowlist_closure (Cell.str ("<p>Big C++ x%</p>")) 'B' (by decide)⟩

/-- C4 counterexample: the claim says every non-string input is mapped to the
empty string, but the code only does that for null/NaN inputs; a numeric cell
is converted with `str(...)` and cleaned, e.g. `clean_text(42) = "42"`. -/
theorem C4_counterexample : clean_text (Cell.num 42) ≠ "" := by decide

/-- C4 (amended): both cleaners are total; null/absent input yields the empty
string; a non-null non-string input is converted to its Python string
representation and then cleaned like a string (not mapped to the empty
string). -/
theorem C4_totality_amended :
    (clean_text Cell.null = "" ∧ clean_description Cell.null = "") ∧
    ∀ v : Cell, v.isna = false →
      clean_text v = clean_text (Cell.str (Cell.pyStr v)) ∧
      clean_description v = clean_description (Cell.str (Cell.pyStr v)) := by
  refine ⟨⟨rfl, rfl⟩, ?_⟩
  intro v hv
  constructor
  · rw [clean_text_eq hv]
    rfl
  · rw [clean_desc_eq hv]
    rfl

theorem C4_totality_amended_witness :
    (Cell.num 7).isna = false ∧
    clean_text (Cell.num 7) = clean_text (Cell.str (Cell.pyStr (Cell.num 7))) ∧
    clean_description (Cell.num 7) = clean_description (Cell.str (Cell.pyStr (Cell.num 7))) :=
  ⟨by decide, (C4_totality_amended.2 (Cell.num 7) (by decide)).1,
    (C4_totality_amended.2 (Cell.num 7) (by decide)).2⟩

/-- C5: both `clean_text` (Field Normalizer) and `clean_description`
(Description Sanitizer) are idempotent: applying the function to its own
output yields the same string as applying it once. -/
theorem C5_idempotence (v : Cell) :
    clean_text (Cell.str (clean_text v)) = clean_text v ∧
    clean_description (Cell.str (clean_description v)) = clean_description v := by
  by_cases hv : v.isna
  · have h1 : clean_text v = "" := by simp [clean_text, hv]
    have h2 : clean_description v = "" := by simp [clean_description, hv]
    rw [h1, h2]
    constructor <;> decide
  · have hv' : v.isna = false := by simpa using hv
    constructor
    · rw [clean_text_eq hv']
      show String.mk (normWs (stripHtml (replaceNbsp
        (normWs (stripHtml (replaceNbsp (Cell.pyStr v).data)))))) = _
      exact congrArg String.mk (clean_text_fix_data _)
    · rw [clean_desc_eq hv']
      show String.mk (normWs (allowFilter (stripUrls (stripHtml (replaceNbsp
        (normWs (allowFilter (stripUrls (stripHtml (replaceNbsp (Cell.pyStr v).data)))))))))) = _
      exact congrArg String.mk (clean_desc_fix_data _)

/-- C6: for every input string containing an HTML-like tag sequence or a URL
token (http://, https://, www. followed by a non-space character), the output
of `clean_description` contains no tag sequence and no URL token. -/
theorem C6_no_markup (s : String) (h : hasTag s.data ∨ hasUrl s.data) :
    ¬ hasTag (clean_description (Cell.str s)).data ∧
    ¬ hasUrl (clean_description (Cell.str s)).data := by
  have he : clean_description (Cell.str s) =
      String.mk (normWs (allowFilter (stripUrls (stripHtml (replaceNbsp s.data))))) := rfl
  rw [he]
  constructor
  · exact clean_desc_no_tag _
  · exact clean_desc_no_url (stripUrls_no_url _)

theorem C6_no_markup_witness :
    (hasTag ("www.x y").data ∨ hasUrl ("www.x y").data) ∧
    ¬ hasTag (clean_description (Cell.str ("www.x y"))).data ∧
    ¬ hasUrl (clean_description (Cell.str ("www.x y"))).data := by
  have hu : hasUrl ("www.x y").data :=
    ⟨[], ("www.x y").data, rfl, ⟨wwwPre, by decide, 'x', [' ', 'y'], by decide, by decide⟩⟩
  exact ⟨Or.inr hu, (C6_no_markup _ (Or.inr hu)).1, (C6_no_markup _ (Or.inr hu)).2⟩

/-! ### Deduplication -/

theorem dedupAux_sublist : ∀ (rs : List JobRec) (seen : List (String × String × String)),
    (dedupAux rs seen).Sublist rs := by
  intro rs
  induction rs with
  | nil => intro seen; simp [dedupAux]
  | cons r rs ih =>
    intro seen
    show (if sigOf r ∈ seen then dedupAux rs seen
      else r :: dedupAux rs (sigOf r :: seen)).Sublist (r :: rs)
    by_cases h : sigOf r ∈ seen
    · rw [if_pos h]
      exact (ih seen).cons r
    · rw [if_neg h]
      exact (ih _).cons₂ r

theorem dedupAux_inv : ∀ (rs : List JobRec) (seen : List (String × String × String)),
    (dedupAux rs seen).Pairwise (fun a b => sigOf a ≠ sigOf b) ∧
    (∀ r ∈ dedupAux rs seen, sigOf r ∉ seen) := by
  intro rs
  induction rs with
  | nil => intro seen; simp [dedupAux]
  | cons r rs ih =>
    intro seen
    by_cases h : sigOf r ∈ seen
    · simp only [dedupAux, if_pos h]
      exact ih seen
    · simp only [dedupAux, if_neg h]
      obtain ⟨hp, hn⟩ := ih (sigOf r :: seen)
      constructor
      · refine List.Pairwise.cons ?_ hp
        intro y hy he
        exact hn y hy (by rw [← he]; exact List.mem_cons_self _ _)
      · intro x hx
        rcases List.mem_cons.mp hx with rfl | hx
        · exact h
        · exact fun hmem => hn x hx (List.mem_cons_of_mem _ hmem)

theorem dedupAux_earliest : ∀ (rs : List JobRec) (seen : List (String × String × String)),
    ∀ r ∈ dedupAux rs seen, ∃ l₁ l₂, rs = l₁ ++ r :: l₂ ∧ ∀ x ∈ l₁, sigOf x ≠ sigOf r := by
  intro rs
  induction rs with
  | nil => intro seen r hr; simp [dedupAux] at hr
  | cons a rs ih =>
    intro seen r hr
    by_cases h : sigOf a ∈ seen
    · simp only [dedupAux, if_pos h] at hr
      obtain ⟨l₁, l₂, heq, hne⟩ := ih seen r hr
      have hnotseen := (dedupAux_inv rs seen).2 r hr
      refine ⟨a :: l₁, l₂, by rw [heq]; rfl, ?_⟩
      intro x hx
      rcases List.mem_cons.mp hx with rfl | hx
      · intro he
        rw [he] at h
        exact hnotseen h
      · exact hne x hx
    · simp only [dedupAux, if_neg h] at hr
      rcases List.mem_cons.mp hr with rfl | hr
      · exact ⟨[], rs, rfl, by simp⟩
      · obtain ⟨l₁, l₂, heq, hne⟩ := ih (sigOf a :: seen) r hr
        have hnotseen := (dedupAux_inv rs (sigOf a :: seen)).2 r hr
        refine ⟨a :: l₁, l₂, by rw [heq]; rfl, ?_⟩
        intro x hx
        rcases List.mem_cons.mp hx with rfl | hx
        · intro he
          exact hnotseen (by rw [← he]; exact List.mem_cons_self _ _)
        · exact hne x hx

theorem dedupAux_complete : ∀ (rs : List JobRec) (seen : List (String × String × String)),
    ∀ x ∈ rs, sigOf x ∈ seen ∨ ∃ r ∈ dedupAux rs seen, sigOf r = sigOf x := by
  intro rs
  induction rs with
  | nil => intro seen x hx; simp at hx
  | cons a rs ih =>
    intro seen x hx
    by_cases h : sigOf a ∈ seen
    · simp only [dedupAux, if_pos h]
      rcases List.mem_cons.mp hx with rfl | hx
      · exact Or.inl h
      · exact ih seen x hx
    · simp only [dedupAux, if_neg h]
      rcases List.mem_cons.mp hx with rfl | hx
      · exact Or.inr ⟨x, List.mem_cons_self _ _, rfl⟩
      · rcases ih (sigOf a :: seen) x hx with hmem | ⟨r, hr, hsig⟩
        · rcases List.mem_cons.mp hmem with he | hm
          · exact Or.inr ⟨a, List.mem_cons_self _ _, he.symm⟩
          · exact Or.inl hm
        · exact Or.inr ⟨r, List.mem_cons_of_mem _ hr, hsig⟩

/-! ### Claims about the record pipeline -/

/-- C3: deduplication keys records by the signature (title, location, first
250 characters of the cleaned description); the survivors form a sublist of
the input (relative order preserved), each survivor is the earliest record of
its signature in input order, any two distinct survivors have different
signatures, and every input signature is represented by a survivor. -/
theorem C3_dedup (rs : List JobRec) :
    (dedupRecs rs).Sublist rs ∧
    (dedupRecs rs).Pairwise (fun a b => sigOf a ≠ sigOf b) ∧
    (∀ r ∈ dedupRecs rs, ∃ l₁ l₂, rs = l₁ ++ r :: l₂ ∧ ∀ x ∈ l₁, sigOf x ≠ sigOf r) ∧
    (∀ x ∈ rs, ∃ r ∈ dedupRecs rs, sigOf r = sigOf x) := by
  refine ⟨dedupAux_sublist rs [], (dedupAux_inv rs []).1, dedupAux_earliest rs [], ?_⟩
  intro x hx
  rcases dedupAux_complete rs [] x hx with h | h
  · simp at h
  · exact h

theorem C3_dedup_witness :
    wRec1 ∈ dedupRecs [wRec1, wRec2] ∧
    ∃ l₁ l₂, [wRec1, wRec2] = l₁ ++ wRec1 :: l₂ ∧ ∀ x ∈ l₁, sigOf x ≠ sigOf wRec1 :=
  ⟨by decide, (C3_dedup [wRec1, wRec2]).2.2.1 wRec1 (by decide)⟩

/-- C2: the quality filter keeps a record exactly when its cleaned description
is non-empty and at least 80 characters long (equivalently, it rejects exactly
the records whose description is empty or shorter than 80); consequently every
record in the pipeline's output has a description of length at least 80. -/
theorem C2_quality_filter :
    (∀ (rs : List JobRec) (r : JobRec), r ∈ qualityFilter rs ↔
      r ∈ rs ∧ ¬(r.description = "" ∨ r.description.length < 80)) ∧
    (∀ (cols : List String) (rows : List (String → Cell)) (res : RunResult),
      mainModel cols rows = Except.ok res → ∀ r ∈ res.output, 80 ≤ r.description.length) := by
  constructor
  · intro rs r
    simp only [qualityFilter, List.mem_filter, Bool.not_eq_true', beq_eq_false_iff_ne,
      decide_eq_true_eq]
    constructor
    · rintro ⟨⟨hm, hne⟩, hlen⟩
      refine ⟨hm, ?_⟩
      push_neg
      exact ⟨hne, by omega⟩
    · rintro ⟨hm, hn⟩
      push_neg at hn
      exact ⟨⟨hm, hn.1⟩, by omega⟩
  · intro cols rows res hok r hr
    simp only [mainModel] at hok
    split_ifs at hok with hm
    · simp only [Except.ok.injEq] at hok
      subst hok
      have hr2 : r ∈ qualityFilter (rows.map fun r => cleanRec (projectRow (stripCols cols) r)) :=
        (dedupAux_sublist _ []).subset hr
      simp only [qualityFilter, List.mem_filter, decide_eq_true_eq] at hr2
      exact hr2.2

theorem C2_quality_filter_witness :
    mainModel wCols [wRow] = Except.ok wRes ∧ wOutRec ∈ wRes.output ∧
    80 ≤ wOutRec.description.length :=
  ⟨rfl, by decide, C2_quality_filter.2 wCols [wRow] wRes rfl wOutRec (by decide)⟩

/-- C7: whenever the pipeline accepts an input (no schema error), the output
row count is at most the input row count, and the quality-filter drop count
plus the duplicate drop count plus the output row count equals the input row
count. -/
theorem C7_counts (cols : List String) (rows : List (String → Cell)) (res : RunResult)
    (hok : mainModel cols rows = Except.ok res) :
    res.output.length ≤ rows.length ∧
    res.droppedQuality + res.droppedDup + res.output.length = rows.length := by
  simp only [mainModel] at hok
  split_ifs at hok with hm
  · simp only [Except.ok.injEq] at hok
    subst hok
    have h1 : (qualityFilter (rows.map fun r => cleanRec (projectRow (stripCols cols) r))).length ≤
        (rows.map fun r => cleanRec (projectRow (stripCols cols) r)).length :=
      le_trans (List.length_filter_le _ _) (List.length_filter_le _ _)
    have h2 : (dedupRecs (qualityFilter
        (rows.map fun r => cleanRec (projectRow (stripCols cols) r)))).length ≤
        (qualityFilter (rows.map fun r => cleanRec (projectRow (stripCols cols) r))).length :=
      (dedupAux_sublist _ []).length_le
    have h3 : (rows.map fun r => cleanRec (projectRow (stripCols cols) r)).length = rows.length :=
      List.length_map _ _
    constructor
    · exact le_trans h2 (le_trans h1 (le_of_eq h3))
    · show (rows.map fun r => cleanRec (projectRow (stripCols cols) r)).length -
        (qualityFilter _).length + ((qualityFilter _).length - (dedupRecs _).length) +
        (dedupRecs _).length = rows.length
      omega

theorem C7_counts_witness :
    mainModel wCols [wRow] = Except.ok wRes ∧
    wRes.output.length ≤ ([wRow] : List (String → Cell)).length ∧
    wRes.droppedQuality + wRes.droppedDup + wRes.output.length =
      ([wRow] : List (String → Cell)).length :=
  ⟨rfl, (C7_counts wCols [wRow] wRes rfl).1, (C7_counts wCols [wRow] wRes rfl).2⟩

/-- C8: if any required column (job_id, title, description) is absent after
trimming the column names, the pipeline fails with a schema error carrying
exactly the missing columns and the columns actually found, and produces no
output; if all three are present, it succeeds with no schema error. -/
theorem C8_schema (cols : List String) (rows : List (String → Cell)) :
    ((∃ c ∈ requiredCols, c ∉ stripCols cols) →
      ∃ e : SchemaError, mainModel cols rows = Except.error e ∧
        e.found = stripCols cols ∧ e.missing ≠ [] ∧
        ∀ c, c ∈ e.missing ↔ c ∈ requiredCols ∧ c ∉ stripCols cols) ∧
    ((∀ c ∈ requiredCols, c ∈ stripCols cols) →
      ∃ res : RunResult, mainModel cols rows = Except.ok res) := by
  have hmem : ∀ c, c ∈ missingOf (stripCols cols) ↔ c ∈ requiredCols ∧ c ∉ stripCols cols := by
    intro c
    simp [missingOf, List.mem_filter]
  constructor
  · rintro ⟨c, hc, hnc⟩
    have hne : missingOf (stripCols cols) ≠ [] :=
      List.ne_nil_of_mem ((hmem c).mpr ⟨hc, hnc⟩)
    refine ⟨⟨missingOf (stripCols cols), stripCols cols⟩, ?_, rfl, hne, hmem⟩
    simp only [mainModel]
    rw [if_neg hne]
  · intro hall
    have hnil : missingOf (stripCols cols) = [] := by
      show requiredCols.filter _ = []
      rw [List.filter_eq_nil_iff]
      intro c hc
      simp [hall c hc]
    refine ⟨⟨dedupRecs (qualityFilter (rows.map fun r => cleanRec (projectRow (stripCols cols) r))),
      rows.length,
      (rows.map fun r => cleanRec (projectRow (stripCols cols) r)).length -
        (qualityFilter (rows.map fun r => cleanRec (projectRow (stripCols cols) r))).length,
      (qualityFilter (rows.map fun r => cleanRec (projectRow (stripCols cols) r))).length -
        (dedupRecs (qualityFilter
          (rows.map fun r => cleanRec (projectRow (stripCols cols) r)))).length⟩, ?_⟩
    simp only [mainModel]
    rw [if_pos hnil]

theorem C8_schema_witness :
    (∃ c ∈ requiredCols, c ∉ stripCols (["job_id", "title"])) ∧
    ∃ e : SchemaError, mainModel (["job_id", "title"]) [] = Except.error e ∧
      e.found = stripCols (["job_id", "title"]) ∧ e.missing ≠ [] ∧
      ∀ c, c ∈ e.missing ↔ c ∈ requiredCols ∧ c ∉ stripCols (["job_id", "title"]) := by
  have hx : ∃ c ∈ requiredCols, c ∉ stripCols (["job_id", "title"]) :=
    ⟨"description", by decide, by decide⟩
  exact ⟨hx, (C8_schema (["job_id", "title"]) []).1 hx⟩

/-! ### Claims about the LLM adapter post-processing -/

theorem lookup_dictSet_self : ∀ (d : List (String × JVal)) (k : String) (v : JVal),
    (dictSet d k v).lookup k = some v := by
  intro d k v
  induction d with
  | nil => simp [dictSet, List.lookup]
  | cons p rest ih =>
    obtain ⟨k', v'⟩ := p
    by_cases h : k' = k
    · simp [dictSet, h, List.lookup]
    · have hbeq : (k == k') = false := beq_eq_false_iff_ne.mpr (fun he => h he.symm)
      simp only [dictSet, if_neg h, List.lookup, hbeq]
      exact ih

theorem lookup_dictSet_ne : ∀ (d : List (String × JVal)) (k k' : String) (v : JVal),
    k' ≠ k → (dictSet d k v).lookup k' = d.lookup k' := by
  intro d k k' v hk
  have hbeq : (k' == k) = false := beq_eq_false_iff_ne.mpr hk
  induction d with
  | nil => simp [dictSet, List.lookup, hbeq]
  | cons p rest ih =>
    obtain ⟨a, b⟩ := p
    by_cases h : a = k
    · subst h
      simp only [dictSet, if_pos rfl, List.lookup, hbeq]
    · simp only [dictSet, if_neg h, List.lookup]
      by_cases ha : k' == a
      · simp [ha]
      · simp only [Bool.not_eq_true] at ha
        simp [ha, ih]

theorem keys_dictSet : ∀ (d : List (String × JVal)) (k : String) (v : JVal),
    (dictSet d k v).map Prod.fst =
      if k ∈ d.map Prod.fst then d.map Prod.fst else d.map Prod.fst ++ [k] := by
  intro d k v
  induction d with
  | nil => simp [dictSet]
  | cons p rest ih =>
    obtain ⟨a, b⟩ := p
    by_cases h : a = k
    · subst h
      simp [dictSet]
    · simp only [dictSet, if_neg h, List.map_cons]
      by_cases hm : k ∈ rest.map Prod.fst
      · rw [if_pos (by simp [hm])]
        rw [ih, if_pos hm]
      · rw [if_neg (by simp only [List.mem_cons, not_or]; exact ⟨fun he => h he.symm, hm⟩)]
        rw [ih, if_neg hm]
        simp

/-- C9: for every parsed JSON object returned by the external LLM call and
every supplied score, the object returned by `run_one` maps `fit_score` to the
supplied score, regardless of what the external call returned for that
field. -/
theorem C9_fit_score (parsed : List (String × JVal)) (score : Int) :
    (run_one_result parsed score).lookup ("fit_score") = some (JVal.jnum score) :=
  lookup_dictSet_self parsed ("fit_score") (JVal.jnum score)

/-- C10: `run_one` modifies only the `fit_score` field of the parsed response:
every other key maps to the value the parse produced, and the key set is
unchanged except for possibly adding `fit_score`. -/
theorem C10_frame (parsed : List (String × JVal)) (score : Int) :
    (∀ k : String, k ≠ "fit_score" →
      (run_one_result parsed score).lookup k = parsed.lookup k) ∧
    (run_one_result parsed score).map Prod.fst =
      (if ("fit_score") ∈ parsed.map Prod.fst then parsed.map Prod.fst
       else parsed.map Prod.fst ++ ["fit_score"]) := by
  constructor
  · intro k hk
    exact lookup_dictSet_ne parsed ("fit_score") k (JVal.jnum score) hk
  · exact keys_dictSet parsed ("fit_score") (JVal.jnum score)

theorem C10_frame_witness :
    ("summary" : String) ≠ "fit_score" ∧
    (run_one_result [("summary", JVal.jstr ("ok"))] 82).lookup ("summary") =
      ([("summary", JVal.jstr ("ok"))] : List (String × JVal)).lookup ("summary") :=
  ⟨by decide, (C10_frame [("summary", JVal.jstr ("ok"))] 82).1 ("summary") (by decide)⟩
